import Mathlib

/-!
Verification development for the nidus Raft implementation.

The definitions below are a shallow embedding of `nidus/log.py`,
`nidus/raft.py`, `nidus/state.py` and `nidus/kvstore.py`.  Bytes are
modelled as `Nat` (values < 256 where produced by the code), files as
`List Nat`, Python exceptions as `Option` results (`none` = raised), and
the JSON codec used by the log (`json.dumps` / `json.loads`) is kept
abstract as a pair `enc : α → List Nat`, `dec : List Nat → Option α`
since the `json` module is external to the repository.  Loops are
written with an explicit fuel argument that is always chosen at the call
site large enough to cover the Python loop; the fuel-exhausted branch
returns `none` and is proved unreachable wherever a theorem depends on
it.
-/

namespace Nidus

set_option maxRecDepth 10000

/-- Model of `struct.pack(">H", n)`: two big-endian bytes.  `struct.pack` raises
for `n ≥ 2^16`; the code only ever packs `remaining_space ≤ page_size - 2`,
we model the packed bytes with explicit `% 256`. -/
def packU16 (n : Nat) : List Nat :=
  [n / 256 % 256, n % 256]

/-- Model of `struct.unpack(">H", b)` of (at least) two bytes. -/
def unpackU16 (l : List Nat) : Nat :=
  match l with
  | b0 :: b1 :: _ => b0 * 256 + b1
  | _ => 0

/-- Model of `struct.pack(">L", n)`: four big-endian bytes (modelled with `% 256`;
the code only packs `u32` terms and sizes). -/
def packU32 (n : Nat) : List Nat :=
  [n / 2 ^ 24 % 256, n / 2 ^ 16 % 256, n / 2 ^ 8 % 256, n % 256]

/-- Model of `struct.unpack(">L", b)` of (at least) four bytes. -/
def unpackU32 (l : List Nat) : Nat :=
  match l with
  | b0 :: b1 :: b2 :: b3 :: _ => ((b0 * 256 + b1) * 256 + b2) * 256 + b3
  | _ => 0

/-- Model of `log.py` `LogEntry`: a term and an opaque item payload. -/
structure LogEntry (α : Type) where
  term : Nat
  item : α
deriving DecidableEq

/-- Model of `LogEntry.to_bytes`: `pack(">LL", term, len(item_json)) + item_json`,
where `item_json = json.dumps(item)` is modelled by `enc`. -/
def entryBytes {α : Type} (enc : α → List Nat) (e : LogEntry α) : List Nat :=
  packU32 e.term ++ packU32 (enc e.item).length ++ enc e.item

/-- Model of `log.py` `Page`: page number, remaining free bytes, raw entry data,
and the decoded entry list. -/
structure Page (α : Type) where
  num : Nat
  remainingSpace : Nat
  data : List Nat
  log : List (LogEntry α)
deriving DecidableEq

/-- A freshly created page `Page(num, page_size - 2, b"")`.  `Page.load`
on empty data parses no entries, so `log = []`. -/
def freshPage (α : Type) (num pageSize : Nat) : Page α :=
  ⟨num, pageSize - 2, [], []⟩

/-- Model of `Page.append`: raises `PageFullException` (here `none`) when the
serialized entry exceeds the remaining space, otherwise extends the
data, shrinks the remaining space and records the entry. -/
def Page.appendE {α : Type} (enc : α → List Nat) (p : Page α) (e : LogEntry α) :
    Option (Page α) :=
  let serialized := entryBytes enc e
  if serialized.length > p.remainingSpace then
    none
  else
    some ⟨p.num, p.remainingSpace - serialized.length, p.data ++ serialized, p.log ++ [e]⟩

/-- Model of `Page.pop`: raises `PageEmptyException` (here `none`) on an empty
page, otherwise removes the last entry and trims its serialized bytes
from the data.  Note the Python method has no `return` statement, so its
value is `None`; only the mutation is modelled here. -/
def Page.popE {α : Type} (enc : α → List Nat) (p : Page α) : Option (Page α) :=
  match p.log.getLast? with
  | none => none
  | some e =>
    let serialized := entryBytes enc e
    some ⟨p.num, p.remainingSpace + serialized.length,
          p.data.take (p.data.length - serialized.length), p.log.dropLast⟩

/-- Write `bytes` into `file` at offset `off`, zero-filling any gap
(POSIX seek-past-end semantics used by `Pager.write`). -/
def writeBytes (file : List Nat) (off : Nat) (bytes : List Nat) : List Nat :=
  file.take off ++ List.replicate (off - file.length) 0 ++ bytes ++ file.drop (off + bytes.length)

/-- Model of `Pager.write`: a page is serialized as
`pack(">H", remaining_space) + data + b"\x00" * remaining_space` and
written at offset `page_size * num`. -/
def pagerWrite {α : Type} (pageSize : Nat) (file : List Nat) (p : Page α) : List Nat :=
  writeBytes file (pageSize * p.num)
    (packU16 p.remainingSpace ++ p.data ++ List.replicate p.remainingSpace 0)

/-- Model of `Pager.truncate`: cut the file at the start of page `p`. -/
def pagerTruncate {α : Type} (pageSize : Nat) (file : List Nat) (p : Page α) : List Nat :=
  file.take (pageSize * p.num)

/-- Model of `Page.load` body: parse entries from `data` while `cursor < end`
where `end = len(data) - remaining_space` (an `int`, possibly negative).
Each step reads two `u32`s (`struct.error`, i.e. `none`, if fewer than 8
bytes remain) and then `item_size` payload bytes decoded by `dec`
(`json.loads`).  The cursor grows by at least 8 per iteration, so fuel
`data.length + 1` always suffices. -/
def pageLoadAux {α : Type} (dec : List Nat → Option α) (data : List Nat) (endI : Int) :
    Nat → Nat → Option (List (LogEntry α))
  | 0, cursor => if (cursor : Int) < endI then none else some []
  | fuel + 1, cursor =>
    if (cursor : Int) < endI then
      if cursor + 8 ≤ data.length then
        let term := unpackU32 ((data.drop cursor).take 4)
        let itemSize := unpackU32 ((data.drop (cursor + 4)).take 4)
        let item := (data.drop (cursor + 8)).take itemSize
        match dec item with
        | none => none
        | some a =>
          (pageLoadAux dec data endI fuel (cursor + 8 + itemSize)).map
            (fun es => ⟨term, a⟩ :: es)
      else none
    else some []

/-- Model of `Page.load` as invoked from `Page.__init__`. -/
def pageLoad {α : Type} (dec : List Nat → Option α) (remainingSpace : Nat)
    (data : List Nat) : Option (List (LogEntry α)) :=
  pageLoadAux dec data ((data.length : Int) - (remainingSpace : Int)) (data.length + 1) 0

/-- Model of `Pager.__iter__`: read `page_size` bytes at a time until the read is
empty.  For a non-empty chunk, `remaining_space` is the first two bytes
(`struct.error`, i.e. `none`, if fewer than two) and
`data = raw_page[2:-remaining_space]` — note that for
`remaining_space = 0` this Python slice is `raw_page[2:0] = b""`.
Each iteration consumes `pageSize ≥ 1` bytes, so fuel `file.length + 1`
suffices. -/
def pagerIterAux {α : Type} (dec : List Nat → Option α) (pageSize : Nat) :
    Nat → List Nat → Nat → Option (List (Page α))
  | 0, file, _ => if (file.take pageSize).isEmpty then some [] else none
  | fuel + 1, file, num =>
    let raw := file.take pageSize
    if raw.isEmpty then
      some []
    else
      if raw.length < 2 then none
      else
        let remaining := unpackU16 raw
        let data := if remaining = 0 then [] else (raw.drop 2).take (raw.length - 2 - remaining)
        match pageLoad dec remaining data with
        | none => none
        | some log =>
          match pagerIterAux dec pageSize fuel (file.drop pageSize) (num + 1) with
          | none => none
          | some rest => some (⟨num, remaining, data, log⟩ :: rest)

def pagerIter {α : Type} (dec : List Nat → Option α) (pageSize : Nat)
    (file : List Nat) : Option (List (Page α)) :=
  pagerIterAux dec pageSize (file.length + 1) file 0

/-- Model of `log.py` `Log`: the pager's page size, the backing file contents and
the in-memory pages. -/
structure Log (α : Type) where
  pageSize : Nat
  file : List Nat
  pages : List (Page α)
deriving DecidableEq

/-- Model of `Log.__init__` / `Log.load`: pages are rebuilt from the file; an
empty file yields a single fresh page 0.  (`Log` always uses the
`Pager` default `page_size = 2048`; the size is kept as a parameter
exactly as in `Pager.__init__`.) -/
def logOpen {α : Type} (dec : List Nat → Option α) (pageSize : Nat)
    (file : List Nat) : Option (Log α) :=
  match pagerIter dec pageSize file with
  | none => none
  | some [] => some ⟨pageSize, file, [freshPage α 0 pageSize]⟩
  | some pages => some ⟨pageSize, file, pages⟩

/-- Concatenation of the entries of a list of pages. -/
def asListP {α : Type} (ps : List (Page α)) : List (LogEntry α) :=
  (ps.map Page.log).flatten

/-- Model of `Log.__len__`: the sum of the page entry counts. -/
def logLen {α : Type} (l : Log α) : Nat :=
  (l.pages.map (fun p => p.log.length)).sum

/-- Model of `Log.as_list` (also `__repr__`): concatenation of all pages' entries. -/
def asList {α : Type} (l : Log α) : List (LogEntry α) :=
  asListP l.pages

/-- Model of `Log.append`: try the tail page; on `PageFullException` start a
fresh page numbered one higher and append there (a second
`PageFullException` propagates, `none`).  The mutated page is written
back through the pager. -/
def Log.appendE {α : Type} (enc : α → List Nat) (l : Log α) (e : LogEntry α) :
    Option (Log α) :=
  match l.pages.getLast? with
  | none => none
  | some p =>
    match p.appendE enc e with
    | some p' =>
      some ⟨l.pageSize, pagerWrite l.pageSize l.file p', l.pages.dropLast ++ [p']⟩
    | none =>
      match (freshPage α (p.num + 1) l.pageSize).appendE enc e with
      | none => none
      | some p' =>
        some ⟨l.pageSize, pagerWrite l.pageSize l.file p', l.pages ++ [p']⟩

/-- Model of `Log.pop`: pop from the tail page; on `PageEmptyException` drop the
tail page, truncate the file there, and pop from the new tail page
(failures of `pages[-1]` or of the second pop propagate, `none`).
The Python method has no `return` statement, so its value is `None`:
the first component of the result is that returned value. -/
def Log.popE {α : Type} (enc : α → List Nat) (l : Log α) :
    Option (Option (LogEntry α) × Log α) :=
  match l.pages.getLast? with
  | none => none
  | some p =>
    match p.popE enc with
    | some p' =>
      some (none, ⟨l.pageSize, pagerWrite l.pageSize l.file p', l.pages.dropLast ++ [p']⟩)
    | none =>
      let rest := l.pages.dropLast
      match rest.getLast? with
      | none => none
      | some q =>
        match q.popE enc with
        | none => none
        | some q' =>
          some (none, ⟨l.pageSize,
            pagerWrite l.pageSize (pagerTruncate l.pageSize l.file p) q',
            rest.dropLast ++ [q']⟩)

/-- Model of `Log.__getitem__` with an integer index: walk the pages, descending
into the page that contains the logical index; past-the-end raises
`IndexError` (`none`). -/
def logGetAux {α : Type} : List (Page α) → Nat → Option (LogEntry α)
  | [], _ => none
  | p :: ps, i =>
    if h : i < p.log.length then some (p.log.get ⟨i, h⟩)
    else logGetAux ps (i - p.log.length)

def logGet {α : Type} (l : Log α) (i : Nat) : Option (LogEntry α) :=
  logGetAux l.pages i

/-- Model of `Log.__getitem__` with a slice `[start:]` (the only supported form):
for each page, if `len(page.log) > start` the code appends the single
element `page.log[start]` to the result, otherwise it decrements
`start` by the page's length. -/
def sliceFromAux {α : Type} : List (Page α) → Nat → List (LogEntry α)
  | [], _ => []
  | p :: ps, start =>
    if h : start < p.log.length then p.log.get ⟨start, h⟩ :: sliceFromAux ps start
    else sliceFromAux ps (start - p.log.length)

def sliceFrom {α : Type} (l : Log α) (start : Nat) : List (LogEntry α) :=
  sliceFromAux l.pages start

/-- Model of `log.py` `clear_upto`: `while len(log) > upto: log.pop()`.  Each
successful pop removes exactly one entry, so fuel `logLen l` suffices;
a pop failure propagates (`none`). -/
def clearUptoAux {α : Type} (enc : α → List Nat) :
    Nat → Log α → Int → Option (Log α)
  | 0, l, upto => if (logLen l : Int) > upto then none else some l
  | fuel + 1, l, upto =>
    if (logLen l : Int) > upto then
      match l.popE enc with
      | none => none
      | some (_, l') => clearUptoAux enc fuel l' upto
    else some l

def clearUpto {α : Type} (enc : α → List Nat) (l : Log α) (upto : Int) :
    Option (Log α) :=
  clearUptoAux enc (logLen l) l upto

/-- The append loop of `apply_all_entries`. -/
def appendAll {α : Type} (enc : α → List Nat) :
    Log α → List (LogEntry α) → Option (Log α)
  | l, [] => some l
  | l, e :: es =>
    match l.appendE enc e with
    | none => none
    | some l' => appendAll enc l' es

/-- Model of `log.py` `apply_all_entries`: truncate any suffix beyond
`prev_index`, then append the new entries in order. -/
def applyAllEntries {α : Type} (enc : α → List Nat) (l : Log α)
    (prevIndex : Int) (entries : List (LogEntry α)) : Option (Log α) :=
  match (if (logLen l : Int) > prevIndex + 1 then clearUpto enc l (prevIndex + 1) else some l) with
  | none => none
  | some l' => appendAll enc l' entries

/-- Model of `log.py` `append_entries`.  For `prev_index < -1` (which no caller
produces: callers pass `prev_index ≥ -1`) Python would index the page
list with wraparound semantics; that branch is modelled as a failure. -/
def appendEntries {α : Type} (enc : α → List Nat) (l : Log α)
    (prevIndex prevTerm : Int) (entries : List (LogEntry α)) :
    Option (Bool × Log α) :=
  if prevIndex ≥ (logLen l : Int) then
    some (false, l)
  else if prevIndex = -1 then
    (applyAllEntries enc l prevIndex entries).map (fun l' => (true, l'))
  else if 0 ≤ prevIndex then
    if (logLen l : Int) > prevIndex then
      match logGet l prevIndex.toNat with
      | none => none
      | some e =>
        if (e.term : Int) = prevTerm then
          (applyAllEntries enc l prevIndex entries).map (fun l' => (true, l'))
        else some (false, l)
    else some (false, l)
  else none

/-- Reachable `Log` states keep at least one page, and only the tail
page may be empty (earlier pages triggered `PageFullException` and a
page loses entries only while it is the tail). -/
def logWF {α : Type} (l : Log α) : Bool :=
  !l.pages.isEmpty && l.pages.dropLast.all (fun p => !p.log.isEmpty)

/-- An entry fits an empty page: its serialization is at most
`page_size - 2` bytes. -/
def fitsPage {α : Type} (enc : α → List Nat) (pageSize : Nat) (e : LogEntry α) : Bool :=
  (entryBytes enc e).length ≤ pageSize - 2

/-! ### A concrete JSON codec instance

`json.dumps` of a non-negative Python `int` is its decimal ASCII
representation and `json.loads` parses it back; this codec instantiates
the abstract `enc`/`dec` pair for items that are natural numbers, for
use in concrete evaluations. -/

def jsonNatEnc (n : Nat) : List Nat :=
  (Nat.toDigits 10 n).map Char.toNat

def jsonNatDec (bs : List Nat) : Option Nat :=
  if bs ≠ [] ∧ bs.all (fun b => decide (48 ≤ b) && decide (b ≤ 57)) then
    some (bs.foldl (fun acc b => acc * 10 + (b - 48)) 0)
  else none

/-! ### Raft node model (`nidus/raft.py` with `nidus/state.py`)

Timer manipulation (`restart_election_timer`, heartbeat scheduling,
`Timer.cancel`) is real-time behaviour outside the state model; the
handlers below record exactly the state mutations and the messages the
code passes to `self.network.send`, in order.  Handlers are
parameterized by the state-machine type `σ` with its total `apply`
function (`RaftNode.apply_any_commits` catches state-machine
exceptions) and a result type `ρ`.  Maps (`match_index`, `next_index`,
Python dicts) are association lists; a missing-key access (`KeyError`)
is `none`. -/

inductive Status where
  | follower
  | candidate
  | leader
deriving DecidableEq

/-- Python `dict[key]` lookup (`none` = `KeyError`). -/
def alookup {β : Type} : List (String × β) → String → Option β
  | [], _ => none
  | (k, v) :: rest, key => if k = key then some v else alookup rest key

/-- Python `dict[key] = value`: replace in place or append. -/
def aset {β : Type} : List (String × β) → String → β → List (String × β)
  | [], key, v => [(key, v)]
  | (k, w) :: rest, key, v =>
    if k = key then (key, v) :: rest else (k, w) :: aset rest key v

/-- Lookup in the `client_callbacks` dict (keyed by log index). -/
def cbGet : List (Int × String) → Int → Option String
  | [], _ => none
  | (k, v) :: rest, key => if k = key then some v else cbGet rest key

/-- Python `dict.pop(key)` on `client_callbacks`: remove the entry. -/
def cbPop : List (Int × String) → Int → List (Int × String)
  | [], _ => []
  | (k, v) :: rest, key => if k = key then rest else (k, v) :: cbPop rest key

/-- `messages.py` `AppendEntriesRequest` (entries travel as
`[term, item]` pairs). -/
structure AppendEntriesReq (α : Type) where
  sender : String
  term : Nat
  prevIndex : Int
  prevTerm : Int
  entries : List (Nat × α)
  commitIndex : Int
deriving DecidableEq

/-- `messages.py` `AppendEntriesResponse`. -/
structure AppendEntriesRes where
  sender : String
  term : Nat
  success : Bool
  matchIndex : Int
deriving DecidableEq

/-- `messages.py` `VoteRequest`. -/
structure VoteReq where
  term : Nat
  candidate : String
  lastLogIndex : Int
  lastLogTerm : Int
deriving DecidableEq

/-- Outbound messages produced by the modelled handlers. -/
inductive OutMsg (α ρ : Type) where
  | appendEntriesRequest (sender : String) (term : Nat) (prevIndex prevTerm : Int)
      (entries : List (Nat × α)) (commitIndex : Int)
  | appendEntriesResponse (sender : String) (term : Nat) (success : Bool) (matchIndex : Int)
  | voteRequest (term : Nat) (candidate : String) (lastLogIndex lastLogTerm : Int)
  | voteResponse (sender : String) (term : Nat) (voteGranted : Bool)
  | clientResponse (result : ρ)
deriving DecidableEq

/-- A `network.send(target, msg)` call. -/
abbrev Sent (α ρ : Type) := String × OutMsg α ρ

/-- The mutable per-node state of `RaftNode` / `RaftState` that the
modelled handlers read and write. -/
structure NodeState (α σ : Type) where
  nodeId : String
  peers : List String
  status : Status
  currentTerm : Nat
  votedFor : Option String
  votes : List String
  log : Log α
  commitIndex : Int
  lastApplied : Int
  matchIndex : List (String × Int)
  nextIndex : List (String × Int)
  leaderId : Option String
  clientCallbacks : List (Int × String)
  sm : σ
deriving DecidableEq

/-- Indexing `log[i]` with a Python `int` as the handlers do.  The
handlers only form non-negative indices or the sentinel `-1`, which
they always guard with a `≥ 0` check before indexing; Python's negative
wraparound is therefore never exercised and is modelled as a failure. -/
def logGetI {α : Type} (l : Log α) (i : Int) : Option (LogEntry α) :=
  if i < 0 then none else logGet l i.toNat

/-- The term of `log[i]` used for `prev_term` / `last_log_term`:
`log[i].term if i >= 0 else -1`. -/
def lastTermAt {α : Type} (l : Log α) (i : Int) : Option Int :=
  if i ≥ 0 then (logGetI l i).map (fun e => (e.term : Int)) else some (-1)

/-- `RaftState.become_follower`: revert to FOLLOWER and clear the vote
(this is what `RaftNode.demote` does to the state; timer bookkeeping is
not modelled). -/
def becomeFollower {α σ : Type} (st : NodeState α σ) : NodeState α σ :=
  { st with status := .follower, votedFor := none }

/-- `RaftState.become_candidate`. -/
def becomeCandidate {α σ : Type} (st : NodeState α σ) : NodeState α σ :=
  { st with
    status := .candidate
    currentTerm := st.currentTerm + 1
    votedFor := some st.nodeId
    votes := [st.nodeId] }

/-- `RaftNode.has_consensus`: index `(n-1)/2` of the sorted
`match_index` values (`IndexError`, i.e. `none`, when the map is
empty).  Python `sorted` is modelled by insertion sort. -/
def hasConsensus (matchIndex : List (String × Int)) (i : Int) : Option Bool :=
  let sortedIdx := List.insertionSort (· ≤ ·) (matchIndex.map Prod.snd)
  match sortedIdx[(sortedIdx.length - 1) / 2]? with
  | none => none
  | some m => some (decide (m ≥ i))

/-- `RaftNode.apply_any_commits`:
`while commit_index > last_applied` apply `log[last_applied + 1]` to the
state machine, then on the leader notify and drop a waiting client
callback.  Each iteration raises `last_applied` by one, so fuel
`(commit_index - last_applied).toNat` covers the loop. -/
def applyAnyCommitsAux {α σ ρ : Type} (applySm : σ → α → σ × ρ) :
    Nat → NodeState α σ → List (Sent α ρ) → Option (NodeState α σ × List (Sent α ρ))
  | 0, st, acc => if st.commitIndex > st.lastApplied then none else some (st, acc)
  | fuel + 1, st, acc =>
    if st.commitIndex > st.lastApplied then
      match logGetI st.log (st.lastApplied + 1) with
      | none => none
      | some entry =>
        let res := applySm st.sm entry.item
        let st' := { st with sm := res.1, lastApplied := st.lastApplied + 1 }
        if st'.status = .leader then
          match cbGet st'.clientCallbacks st'.lastApplied with
          | some addr =>
            applyAnyCommitsAux applySm fuel
              { st' with clientCallbacks := cbPop st'.clientCallbacks st'.lastApplied }
              (acc ++ [(addr, .clientResponse res.2)])
          | none => applyAnyCommitsAux applySm fuel st' acc
        else applyAnyCommitsAux applySm fuel st' acc
    else some (st, acc)

def applyAnyCommits {α σ ρ : Type} (applySm : σ → α → σ × ρ) (st : NodeState α σ) :
    Option (NodeState α σ × List (Sent α ρ)) :=
  applyAnyCommitsAux applySm (st.commitIndex - st.lastApplied).toNat st []

/-- `RaftNode.handle_vote_request`.  The grant condition reproduces the
Python expression
`voted_for is None or voted_for == candidate and (...)`
with Python operator precedence (`and` binds tighter than `or`). -/
def handleVoteRequest {α σ ρ : Type} (st : NodeState α σ) (req : VoteReq) :
    Option (NodeState α σ × List (Sent α ρ)) :=
  if req.term < st.currentTerm then
    some (st, [(req.candidate, .voteResponse st.nodeId st.currentTerm false)])
  else
    let st := if req.term > st.currentTerm ∧ st.status ≠ .follower then
        becomeFollower { st with currentTerm := req.term }
      else st
    let lastLogIndex : Int := (logLen st.log : Int) - 1
    match lastTermAt st.log lastLogIndex with
    | none => none
    | some lastLogTerm =>
      if st.votedFor = none ∨ (st.votedFor = some req.candidate ∧
          (req.lastLogTerm > lastLogTerm ∨
            (req.lastLogIndex ≥ lastLogIndex ∧ req.lastLogTerm = lastLogTerm))) then
        some ({ st with votedFor := some req.candidate },
          [(req.candidate, .voteResponse st.nodeId st.currentTerm true)])
      else
        some (st, [(req.candidate, .voteResponse st.nodeId st.currentTerm false)])

/-- The opening steps of `RaftNode.handle_append_entries_request`:
demote when not a follower, adopt a higher term, record the leader for
client redirection. -/
def aeReqPrelude {α σ : Type} (st : NodeState α σ) (req : AppendEntriesReq α) :
    NodeState α σ :=
  let st := if st.status ≠ .follower then becomeFollower st else st
  let st := if req.term > st.currentTerm then { st with currentTerm := req.term } else st
  if st.leaderId ≠ some req.sender then { st with leaderId := some req.sender } else st

/-- The closing step of `RaftNode.handle_append_entries_request`: send
the response, then run the apply loop (whose client notifications are
sent after the response). -/
def aeReqFinish {α σ ρ : Type} (applySm : σ → α → σ × ρ)
    (st : NodeState α σ) (res : Sent α ρ) :
    Option (NodeState α σ × List (Sent α ρ)) :=
  match applyAnyCommits applySm st with
  | none => none
  | some (st', sends) => some (st', res :: sends)

/-- `RaftNode.handle_append_entries_request`. -/
def handleAppendEntriesRequest {α σ ρ : Type} (enc : α → List Nat)
    (applySm : σ → α → σ × ρ) (st : NodeState α σ) (req : AppendEntriesReq α) :
    Option (NodeState α σ × List (Sent α ρ)) :=
  let st := aeReqPrelude st req
  if req.term < st.currentTerm then
    some (st, [(req.sender,
      .appendEntriesResponse st.nodeId st.currentTerm false ((logLen st.log : Int) - 1))])
  else
    let entries := req.entries.map (fun e => LogEntry.mk e.1 e.2)
    match appendEntries enc st.log req.prevIndex req.prevTerm entries with
    | none => none
    | some (success, log') =>
      let st := { st with log := log' }
      let matchIdx : Int := if success then (logLen st.log : Int) - 1 else 0
      let st := if success ∧ req.commitIndex > st.commitIndex then
          { st with commitIndex := min req.commitIndex ((logLen st.log : Int) - 1) }
        else st
      let res : Sent α ρ :=
        (req.sender, .appendEntriesResponse st.nodeId st.currentTerm success matchIdx)
      aeReqFinish applySm st res

/-- `messages.py` `AppendEntriesRequest.from_raft_state`, including the
`log[next_index:]` slice (the slice path of `Log.__getitem__`). -/
def fromRaftState {α σ ρ : Type} (st : NodeState α σ) (sender dst : String) :
    Option (OutMsg α ρ) :=
  match alookup st.nextIndex dst with
  | none => none
  | some nextIdx =>
    let prevIndex := nextIdx - 1
    match lastTermAt st.log prevIndex with
    | none => none
    | some prevTerm =>
      if (logLen st.log : Int) - 1 ≥ nextIdx then
        if nextIdx < 0 then none
        else
          some (.appendEntriesRequest sender st.currentTerm prevIndex prevTerm
            ((sliceFrom st.log nextIdx.toNat).map (fun e => (e.term, e.item)))
            st.commitIndex)
      else
        some (.appendEntriesRequest sender st.currentTerm prevIndex prevTerm []
          st.commitIndex)

/-- The closing step of `RaftNode.handle_append_entries_response`: run
the apply loop and send the resent request (if any) before the apply
loop's client notifications. -/
def aeRespFinish {α σ ρ : Type} (applySm : σ → α → σ × ρ)
    (st : NodeState α σ) (resend : List (Sent α ρ)) :
    Option (NodeState α σ × List (Sent α ρ)) :=
  match applyAnyCommits applySm st with
  | none => none
  | some (st', sends) => some (st', resend ++ sends)

/-- The tail of `RaftNode.handle_append_entries_response` after the
match/next-index bookkeeping: possibly resend an append-entries
request, run the commit-advancement check (with the Python
left-to-right short-circuit of
`has_consensus(i) and i > -1 and log[i].term == current_term and
commit_index < i`), and run the apply loop. -/
def aeRespCore {α σ ρ : Type} (applySm : σ → α → σ × ρ)
    (st : NodeState α σ) (sender : String) :
    Option (NodeState α σ × List (Sent α ρ)) :=
  match alookup st.matchIndex sender with
  | none => none
  | some m =>
    match (if m ≠ (logLen st.log : Int) - 1 then
        (fromRaftState st st.nodeId sender).map (fun msg => [(sender, msg)])
      else some []) with
    | none => none
    | some resend =>
      match hasConsensus st.matchIndex m with
      | none => none
      | some consensusOk =>
        match (if consensusOk ∧ m > -1 then
            (logGetI st.log m).map (fun e =>
              if e.term = st.currentTerm ∧ st.commitIndex < m then
                { st with commitIndex := m }
              else st)
          else some st) with
        | none => none
        | some st => aeRespFinish applySm st resend

/-- The match/next-index bookkeeping step of
`RaftNode.handle_append_entries_response`: on success raise
`match_index[sender]` (never lowering it) and set
`next_index = match_index + 1`; on failure back `next_index` off by
one (not below 0). -/
def aeRespUpdate {α σ : Type} (st : NodeState α σ) (res : AppendEntriesRes) :
    Option (NodeState α σ) :=
  if res.success then
    (alookup st.matchIndex res.sender).map (fun m =>
      let m' := max res.matchIndex m
      { st with matchIndex := aset st.matchIndex res.sender m',
                nextIndex := aset st.nextIndex res.sender (m' + 1) })
  else
    (alookup st.nextIndex res.sender).map (fun n =>
      { st with nextIndex := aset st.nextIndex res.sender (max 0 (n - 1)) })

/-- `RaftNode.handle_append_entries_response`. -/
def handleAppendEntriesResponse {α σ ρ : Type} (applySm : σ → α → σ × ρ)
    (st : NodeState α σ) (res : AppendEntriesRes) :
    Option (NodeState α σ × List (Sent α ρ)) :=
  let st := if st.currentTerm < res.term then becomeFollower st else st
  if st.status ≠ .leader then some (st, [])
  else
    match aeRespUpdate st res with
    | none => none
    | some st => aeRespCore applySm st res.sender

/-- `RaftNode.handle_election_request`: become candidate and broadcast
`VoteRequest(current_term, node_id, prev_index, prev_term)` to all
peers. -/
def handleElectionRequest {α σ ρ : Type} (st : NodeState α σ) :
    Option (NodeState α σ × List (Sent α ρ)) :=
  let st := becomeCandidate st
  let prevIndex : Int := (logLen st.log : Int) - 1
  match lastTermAt st.log prevIndex with
  | none => none
  | some prevTerm =>
    some (st, st.peers.map (fun p =>
      (p, .voteRequest st.currentTerm st.nodeId prevIndex prevTerm)))

/-! ### Durable state cells (`nidus/state.py`)

Term and vote files as byte lists; node ids are modelled by their UTF-8
bytes (encode/decode is the identity on the byte level). -/

/-- Reading `<node>.term` on re-open (`RaftState.__init__` when the
file exists): `struct.unpack(">L", f.read(4))` raises `struct.error`
(`none`) when the file holds fewer than 4 bytes. -/
def readTermFile (termFile : List Nat) : Option Nat :=
  if 4 ≤ termFile.length then some (unpackU32 (termFile.take 4)) else none

/-- Reading `<node>.vote` on re-open: non-empty bytes decode to the
candidate id, an empty file means `None`. -/
def readVoteFile (voteFile : List Nat) : Option (List Nat) :=
  if voteFile.isEmpty then none else some voteFile

/-- The `current_term` setter: `seek(0)` then write 4 big-endian bytes
(no truncation; the file is only ever 0 or 4 bytes long).  `struct.pack`
raises (`none`) for a term outside `u32` range. -/
def writeTermFile (termFile : List Nat) (term : Nat) : Option (List Nat) :=
  if term < 2 ^ 32 then some (packU32 term ++ termFile.drop 4) else none

/-- The `voted_for` setter: truncate the file, then write the candidate
bytes (nothing for `None`). -/
def writeVoteFile (candidate : Option (List Nat)) : List Nat :=
  match candidate with
  | none => []
  | some bs => bs

/-! ### Key/value store (`nidus/kvstore.py`)

Commands are lists of strings (`command = [TOKEN…]` from the CLI);
`buckets` is a `defaultdict(dict)`, so a bare `self.buckets[bucket]`
access materializes an empty bucket.  `str.upper` on the ASCII command
verbs is character-wise uppercasing. -/

def strUpper (s : String) : String :=
  ⟨s.data.map Char.toUpper⟩

/-- Results returned by `KVStore` methods: `None`, a string, or a list
of strings. -/
inductive KVResult where
  | null
  | str (s : String)
  | strs (l : List String)
deriving DecidableEq

structure KVStore where
  buckets : List (String × List (String × String))
deriving DecidableEq

/-- A `self.buckets[bucket]` access: return the bucket, materializing an
empty one (defaultdict) if absent. -/
def kvBucket (store : KVStore) (b : String) : List (String × String) × KVStore :=
  match alookup store.buckets b with
  | some d => (d, store)
  | none => ([], ⟨store.buckets ++ [(b, [])]⟩)

/-- `KVStore.get`: `self.buckets[bucket].get(key)`. -/
def KVStore.get (store : KVStore) (b k : String) : Option String × KVStore :=
  let r := kvBucket store b
  (alookup r.1 k, r.2)

/-- `KVStore.set`: `self.buckets[bucket][key] = value; return "OK"`. -/
def KVStore.set (store : KVStore) (b k v : String) : String × KVStore :=
  let r := kvBucket store b
  ("OK", ⟨aset r.2.buckets b (aset r.1 k v)⟩)

/-- Removal of the first binding of a key from an association list
(Python `del d[key]` after a successful lookup). -/
def aremove {β : Type} : List (String × β) → String → List (String × β)
  | [], _ => []
  | (k, v) :: rest, key => if k = key then rest else (k, v) :: aremove rest key

/-- `KVStore.delete`: `del self.buckets[bucket][key]`, `"NO_KEY"` on
`KeyError` (the defaultdict access still materializes the bucket). -/
def KVStore.delete (store : KVStore) (b k : String) : String × KVStore :=
  let r := kvBucket store b
  match alookup r.1 k with
  | none => ("NO_KEY", r.2)
  | some _ => ("OK", ⟨aset r.2.buckets b (aremove r.1 k)⟩)

/-- `KVStore.delete_bucket`. -/
def KVStore.deleteBucket (store : KVStore) (b : String) : String × KVStore :=
  match alookup store.buckets b with
  | none => ("NO_BUCKET", store)
  | some _ => ("OK", ⟨aremove store.buckets b⟩)

/-- `KVStore.keys` (defaultdict access, then `list(... .keys())`). -/
def KVStore.keys (store : KVStore) (b : String) : List String × KVStore :=
  let r := kvBucket store b
  (r.1.map Prod.fst, r.2)

/-- `KVStore.list_buckets`. -/
def KVStore.listBuckets (store : KVStore) : List String :=
  store.buckets.map Prod.fst

/-- `KVStore.apply`: dispatch on the upper-cased verb with arity
asserts (`AssertionError` is caught and returns `"BAD_ARGS"`). -/
def KVStore.apply (store : KVStore) (item : List String) : KVResult × KVStore :=
  match item with
  | [] => (.str "BAD_ARGS", store)
  | verb :: args =>
    let command := strUpper verb
    if command = "GET" then
      match args with
      | [b, k] =>
        let r := store.get b k
        ((match r.1 with | none => .null | some s => .str s), r.2)
      | _ => (.str "BAD_ARGS", store)
    else if command = "SET" then
      match args with
      | [b, k, v] =>
        let r := store.set b k v
        (.str r.1, r.2)
      | _ => (.str "BAD_ARGS", store)
    else if command = "DEL" then
      match args with
      | [b, k] =>
        let r := store.delete b k
        (.str r.1, r.2)
      | _ => (.str "BAD_ARGS", store)
    else if command = "DELBUCKET" then
      match args with
      | [b] =>
        let r := store.deleteBucket b
        (.str r.1, r.2)
      | _ => (.str "BAD_ARGS", store)
    else if command = "KEYS" then
      match args with
      | [b] =>
        let r := store.keys b
        (.strs r.1, r.2)
      | _ => (.str "BAD_ARGS", store)
    else if command = "BUCKETS" then
      match args with
      | [] => (.strs store.listBuckets, store)
      | _ => (.str "BAD_ARGS", store)
    else (.str "NO_CMD", store)

/-! ### Spec-side definitions, for comparison with the code -/

/-- Modelled from the spec (§4.F step 5): grant iff
`voted_for ∈ {None, candidate}` AND the candidate log is at least as
up-to-date.  This is the bracketing the spec mandates, stated for
comparison with the code's grant condition. -/
def specVoteGrant (votedFor : Option String) (candidate : String)
    (reqLastLogTerm reqLastLogIndex myLastTerm myLastIndex : Int) : Bool :=
  decide ((votedFor = none ∨ votedFor = some candidate) ∧
    (reqLastLogTerm > myLastTerm ∨
      (reqLastLogTerm = myLastTerm ∧ reqLastLogIndex ≥ myLastIndex)))

/-- Modelled from the spec: `median = sorted(match_index.values())[(n−1)/2]`,
written with merge sort (independently of the insertion sort used to
model Python `sorted` in `hasConsensus`). -/
def specMedian (matchIndex : List (String × Int)) : Int :=
  ((matchIndex.map Prod.snd).mergeSort (fun a b => decide (a ≤ b))).getD
    ((matchIndex.length - 1) / 2) 0

/-! ### Concrete instances used by the claim evaluations -/

/-- The in-memory log of a freshly opened empty log file.  `Log`
itself always uses the `Pager` default `page_size = 2048`; the concrete
evaluations below use `page_size = 64` exactly as the repository's own
tests do (`test_log.py`), which changes nothing about the behaviours
under scrutiny. -/
def emptyLog : Log Nat :=
  ⟨64, [], [⟨0, 62, [], []⟩]⟩

/-- A trivial state machine (its behaviour is irrelevant to the
evaluated handlers). -/
def unitSm : Unit → Nat → Unit × String := fun _ _ => ((), "OK")

/-- A follower node in its initial state (term 0, no vote, empty log). -/
def initNode : NodeState Nat Unit :=
  { nodeId := "n0", peers := ["n1", "n2"], status := .follower,
    currentTerm := 0, votedFor := none, votes := [], log := emptyLog,
    commitIndex := -1, lastApplied := -1, matchIndex := [], nextIndex := [],
    leaderId := none, clientCallbacks := [], sm := () }

/-- A log holding one entry with term 5 (as produced by appending
`LogEntry(5, 1)` to a fresh log). -/
def c2Log : Log Nat :=
  ⟨64, [], [⟨0, 53, entryBytes jsonNatEnc ⟨5, 1⟩, [⟨5, 1⟩]⟩]⟩

/-- A follower at term 5 with one term-5 entry and no vote cast. -/
def c2State : NodeState Nat Unit :=
  { initNode with currentTerm := 5, log := c2Log }

/-- A vote request at term 5 from a candidate whose log is empty
(`last_log_index = last_log_term = -1`), i.e. strictly less up-to-date
than `c2State`'s log. -/
def c2Req : VoteReq := ⟨5, "n1", -1, -1⟩

/-- Six entries, all with term 1. -/
def c5Entries : List (LogEntry Nat) :=
  [⟨1, 0⟩, ⟨1, 1⟩, ⟨1, 2⟩, ⟨1, 3⟩, ⟨1, 4⟩, ⟨1, 5⟩]

/-- A single-page log holding `c5Entries` (54 data bytes). -/
def c5Log : Log Nat :=
  ⟨64, [],
    [⟨0, 62 - ((c5Entries.map (entryBytes jsonNatEnc)).flatten).length,
      (c5Entries.map (entryBytes jsonNatEnc)).flatten, c5Entries⟩]⟩

/-- A follower at term 1 with six committed and applied entries. -/
def c5State : NodeState Nat Unit :=
  { initNode with
    currentTerm := 1
    log := c5Log
    commitIndex := 5
    lastApplied := 5
    leaderId := some "n1" }

/-- An append-entries request at the same term with a matching
`prev_index = 2`, no entries, and `leader_commit = 6`. -/
def c5Req : AppendEntriesReq Nat := ⟨"n1", 1, 2, 1, [], 6⟩

/-- A well-behaved request for the same state: its `prev_index` covers
the committed prefix (`prev_index + len(entries) ≥ commit_index`). -/
def c5ReqOk : AppendEntriesReq Nat := ⟨"n1", 1, 5, 1, [], 6⟩

/-- A single-page log holding two entries. -/
def c6Log : Log Nat :=
  ⟨64, [],
    [⟨0, 62 - (entryBytes jsonNatEnc ⟨1, 7⟩ ++ entryBytes jsonNatEnc ⟨1, 8⟩).length,
      entryBytes jsonNatEnc ⟨1, 7⟩ ++ entryBytes jsonNatEnc ⟨1, 8⟩,
      [⟨1, 7⟩, ⟨1, 8⟩]⟩]⟩

/-- A single-page log holding one entry. -/
def c8Log : Log Nat :=
  ⟨64, [], [⟨0, 53, entryBytes jsonNatEnc ⟨1, 7⟩, [⟨1, 7⟩]⟩]⟩

/-- A freshly opened `Log` (empty file) with one appended entry
`LogEntry(1, 5)`. -/
def c3Log : Option (Log Nat) :=
  (logOpen jsonNatDec 64 []).bind (fun l => l.appendE jsonNatEnc ⟨1, 5⟩)

/-- The entries read back by constructing a new `Log` over the same
file (`Pager.read` path). -/
def c3Reloaded : Option (List (LogEntry Nat)) :=
  c3Log.bind (fun l => (logOpen jsonNatDec 64 l.file).map asList)

/-- A two-entry log for the `C1` witness. -/
def w1Log : Log Nat :=
  ⟨64, [],
    [⟨0, 62 - (entryBytes jsonNatEnc ⟨1, 3⟩ ++ entryBytes jsonNatEnc ⟨2, 4⟩).length,
      entryBytes jsonNatEnc ⟨1, 3⟩ ++ entryBytes jsonNatEnc ⟨2, 4⟩,
      [⟨1, 3⟩, ⟨2, 4⟩]⟩]⟩

/-- The five-node example from the spec:
`match_index = [1, 3, 2, 3, 3]`. -/
def fiveNodeMatchIndex : List (String × Int) :=
  [("n0", 1), ("n1", 3), ("n2", 2), ("n3", 3), ("n4", 3)]

/-- Step 1 of the double-vote run: a vote request from `n1` at the
node's own term. -/
def c4Step1 : Option (NodeState Nat Unit × List (Sent Nat String)) :=
  handleVoteRequest initNode ⟨0, "n1", -1, -1⟩

/-- Step 2: an `AppendEntriesResponse` carrying a higher term, which
demotes the node (clearing `voted_for`) without raising
`current_term`. -/
def c4Step2 : Option (NodeState Nat Unit × List (Sent Nat String)) :=
  c4Step1.bind (fun r => handleAppendEntriesResponse unitSm r.1 ⟨"n2", 1, false, 0⟩)

/-- Step 3: a vote request from a different candidate `n2`, again at
the node's own (unchanged) term. -/
def c4Step3 : Option (NodeState Nat Unit × List (Sent Nat String)) :=
  c4Step2.bind (fun r => handleVoteRequest r.1 ⟨0, "n2", -1, -1⟩)

/-! ### Basic lemmas about the paged log -/

lemma asListP_append {α : Type} (a b : List (Page α)) :
    asListP (a ++ b) = asListP a ++ asListP b := by
  simp [asListP]

lemma asListP_single {α : Type} (p : Page α) : asListP [p] = p.log := by
  simp [asListP]

lemma logLen_eq_length {α : Type} (l : Log α) : logLen l = (asList l).length := by
  rw [logLen, asList, asListP, List.length_flatten, List.map_map]
  rfl

lemma Page.appendE_eq {α : Type} (enc : α → List Nat) (p : Page α) (e : LogEntry α) :
    p.appendE enc e =
      if (entryBytes enc e).length > p.remainingSpace then none
      else some ⟨p.num, p.remainingSpace - (entryBytes enc e).length,
        p.data ++ entryBytes enc e, p.log ++ [e]⟩ := rfl

/-- The model of `Log.append` succeeds whenever the entry fits an empty page, and it
appends the entry at the logical end of the log. -/
lemma Log.appendE_some {α : Type} (enc : α → List Nat) (l : Log α) (e : LogEntry α)
    (hne : l.pages ≠ []) (hfit : fitsPage enc l.pageSize e = true) :
    ∃ l', l.appendE enc e = some l' ∧ asList l' = asList l ++ [e] ∧
      l'.pages ≠ [] ∧ l'.pageSize = l.pageSize := by
  have hsplit := List.dropLast_append_getLast hne
  have hlast : l.pages.getLast? = some (l.pages.getLast hne) :=
    List.getLast?_eq_getLast l.pages hne
  set p := l.pages.getLast hne with hp
  have hlistl : asList l = asListP l.pages.dropLast ++ p.log := by
    conv_lhs => rw [asList, ← hsplit]
    rw [asListP_append, asListP_single]
  cases hap : p.appendE enc e with
  | some p' =>
    have hplog : p'.log = p.log ++ [e] := by
      rw [Page.appendE_eq] at hap
      split at hap
      · exact absurd hap (by simp)
      · cases hap; rfl
    refine ⟨⟨l.pageSize, pagerWrite l.pageSize l.file p', l.pages.dropLast ++ [p']⟩,
      by simp only [Log.appendE, hlast, hap], ?_, by simp, rfl⟩
    show asListP (l.pages.dropLast ++ [p']) = asList l ++ [e]
    rw [asListP_append, asListP_single, hplog, hlistl]
    simp
  | none =>
    have hfr : (freshPage α (p.num + 1) l.pageSize).appendE enc e =
        some ⟨p.num + 1, l.pageSize - 2 - (entryBytes enc e).length,
          [] ++ entryBytes enc e, [] ++ [e]⟩ := by
      rw [Page.appendE_eq]
      have : ¬ (entryBytes enc e).length > l.pageSize - 2 := by
        simp [fitsPage] at hfit
        omega
      simp only [freshPage, this, if_false]
    refine ⟨⟨l.pageSize,
      pagerWrite l.pageSize l.file ⟨p.num + 1, l.pageSize - 2 - (entryBytes enc e).length,
        [] ++ entryBytes enc e, [] ++ [e]⟩,
      l.pages ++ [⟨p.num + 1, l.pageSize - 2 - (entryBytes enc e).length,
        [] ++ entryBytes enc e, [] ++ [e]⟩]⟩,
      by simp only [Log.appendE, hlast, hap, hfr], ?_, by simp, rfl⟩
    show asListP (l.pages ++ [⟨p.num + 1, l.pageSize - 2 - (entryBytes enc e).length,
      [] ++ entryBytes enc e, [] ++ [e]⟩]) = asList l ++ [e]
    rw [asListP_append, asListP_single, asList]
    simp

/-- What a successful `Log.pop` does: the Python method returns `None`,
the last logical entry is removed, and the length drops by one. -/
lemma Log.popE_char {α : Type} (enc : α → List Nat) (l : Log α)
    (v : Option (LogEntry α)) (l' : Log α) (h : l.popE enc = some (v, l')) :
    v = none ∧ asList l' = (asList l).dropLast ∧ logLen l' + 1 = logLen l ∧
      l'.pageSize = l.pageSize ∧ l'.pages ≠ [] := by
  have hne : l.pages ≠ [] := by
    intro hnil
    simp only [Log.popE, hnil] at h
    simp at h
  have hsplit := List.dropLast_append_getLast hne
  have hlast : l.pages.getLast? = some (l.pages.getLast hne) :=
    List.getLast?_eq_getLast l.pages hne
  set p := l.pages.getLast hne with hp
  have hlistl : asList l = asListP l.pages.dropLast ++ p.log := by
    conv_lhs => rw [asList, ← hsplit]
    rw [asListP_append, asListP_single]
  cases hpp : p.popE enc with
  | some p' =>
    simp only [Log.popE, hlast, hpp, Option.some.injEq, Prod.mk.injEq] at h
    obtain ⟨hv, hl⟩ := h
    obtain ⟨e, he⟩ : ∃ e, p.log.getLast? = some e := by
      rw [Page.popE] at hpp
      cases hle : p.log.getLast? with
      | none => rw [hle] at hpp; exact absurd hpp (by simp)
      | some e => exact ⟨e, rfl⟩
    have hpne : p.log ≠ [] := by
      intro hnil
      rw [hnil] at he
      simp at he
    have hplog : p'.log = p.log.dropLast := by
      rw [Page.popE, he] at hpp
      cases hpp; rfl
    refine ⟨hv.symm, ?_, ?_, by rw [← hl], by rw [← hl]; simp⟩
    · rw [← hl, asList, asListP_append, asListP_single, hplog, hlistl,
        List.dropLast_append_of_ne_nil _ hpne]
    · rw [← hl, logLen_eq_length, logLen_eq_length, asList, asListP_append,
        asListP_single, hplog, hlistl]
      simp only [List.length_append, List.length_dropLast]
      have : 0 < p.log.length := List.length_pos.mpr hpne
      omega
  | none =>
    have hpnil : p.log = [] := by
      rw [Page.popE] at hpp
      cases hle : p.log.getLast? with
      | none => exact List.getLast?_eq_none_iff.mp hle
      | some e => rw [hle] at hpp; exact absurd hpp (by simp)
    cases hql : l.pages.dropLast.getLast? with
    | none =>
      simp only [Log.popE, hlast, hpp, hql] at h
      exact Option.noConfusion h
    | some q =>
      cases hqp : q.popE enc with
      | none =>
        simp only [Log.popE, hlast, hpp, hql, hqp] at h
        exact Option.noConfusion h
      | some q' =>
        simp only [Log.popE, hlast, hpp, hql, hqp, Option.some.injEq, Prod.mk.injEq] at h
        obtain ⟨hv, hl⟩ := h
        have hrne : l.pages.dropLast ≠ [] := by
          intro hnil
          rw [hnil] at hql
          simp at hql
        have hq : l.pages.dropLast.getLast hrne = q := by
          have h2 := List.getLast?_eq_getLast l.pages.dropLast hrne
          rw [hql] at h2
          exact (Option.some_injective _ h2.symm)
        have hrsplit := List.dropLast_append_getLast hrne
        obtain ⟨e, he⟩ : ∃ e, q.log.getLast? = some e := by
          rw [Page.popE] at hqp
          cases hle : q.log.getLast? with
          | none => rw [hle] at hqp; exact absurd hqp (by simp)
          | some e => exact ⟨e, rfl⟩
        have hqne : q.log ≠ [] := by
          intro hnil
          rw [hnil] at he
          simp at he
        have hqlog : q'.log = q.log.dropLast := by
          rw [Page.popE, he] at hqp
          cases hqp; rfl
        have hlist2 : asList l = asListP l.pages.dropLast.dropLast ++ q.log := by
          conv_lhs => rw [hlistl, hpnil, ← hrsplit]
          rw [asListP_append, asListP_single, hq]
          simp
        refine ⟨hv.symm, ?_, ?_, by rw [← hl], by rw [← hl]; simp⟩
        · rw [← hl, asList, asListP_append, asListP_single, hqlog, hlist2,
            List.dropLast_append_of_ne_nil _ hqne]
        · rw [← hl, logLen_eq_length, logLen_eq_length, asList, asListP_append,
            asListP_single, hqlog, hlist2]
          simp only [List.length_append, List.length_dropLast]
          have : 0 < q.log.length := List.length_pos.mpr hqne
          omega

/-- On a well-formed, logically non-empty log `Log.pop` succeeds and
preserves well-formedness. -/
lemma Log.popE_some {α : Type} (enc : α → List Nat) (l : Log α)
    (hwf : logWF l = true) (hlen : 0 < logLen l) :
    ∃ l', l.popE enc = some (none, l') ∧ logWF l' = true := by
  simp only [logWF, Bool.and_eq_true, List.all_eq_true, Bool.not_eq_true'] at hwf
  obtain ⟨hne', hdrop⟩ := hwf
  have hne : l.pages ≠ [] := by
    intro hnil
    rw [hnil] at hne'
    simp at hne'
  have hsplit := List.dropLast_append_getLast hne
  have hlast : l.pages.getLast? = some (l.pages.getLast hne) :=
    List.getLast?_eq_getLast l.pages hne
  set p := l.pages.getLast hne with hp
  by_cases hpe : p.log = []
  · -- tail page empty: pop removes it and pops from the previous page
    have hrne : l.pages.dropLast ≠ [] := by
      intro hnil
      have : asList l = p.log := by
        rw [asList, ← hsplit, hnil, asListP_append, asListP_single]
        simp [asListP]
      rw [logLen_eq_length, this, hpe] at hlen
      simp at hlen
    have hrlast : l.pages.dropLast.getLast? = some (l.pages.dropLast.getLast hrne) :=
      List.getLast?_eq_getLast _ hrne
    set q := l.pages.dropLast.getLast hrne with hq
    have hqmem : q ∈ l.pages.dropLast := List.getLast_mem hrne
    have hqne : q.log ≠ [] := by
      have := hdrop q hqmem
      intro hnil
      rw [hnil] at this
      simp at this
    obtain ⟨e, he⟩ : ∃ e, q.log.getLast? = some e := by
      cases hle : q.log.getLast? with
      | none => exact absurd (List.getLast?_eq_none_iff.mp hle) hqne
      | some e => exact ⟨e, rfl⟩
    have hppop : p.popE enc = none := by
      rw [Page.popE, List.getLast?_eq_none_iff.mpr hpe]
    have hqpop : q.popE enc =
        some ⟨q.num, q.remainingSpace + (entryBytes enc e).length,
          q.data.take (q.data.length - (entryBytes enc e).length), q.log.dropLast⟩ := by
      rw [Page.popE, he]
    refine ⟨⟨l.pageSize,
      pagerWrite l.pageSize (pagerTruncate l.pageSize l.file p)
        ⟨q.num, q.remainingSpace + (entryBytes enc e).length,
          q.data.take (q.data.length - (entryBytes enc e).length), q.log.dropLast⟩,
      l.pages.dropLast.dropLast ++ [⟨q.num, q.remainingSpace + (entryBytes enc e).length,
          q.data.take (q.data.length - (entryBytes enc e).length), q.log.dropLast⟩]⟩, ?_, ?_⟩
    · simp only [Log.popE, hlast, hppop, hrlast, hqpop]
    · simp only [logWF, Bool.and_eq_true, List.all_eq_true, Bool.not_eq_true']
      constructor
      · simp
      · intro r hr
        rw [List.dropLast_concat] at hr
        exact hdrop r (List.dropLast_subset _ hr)
  · -- tail page non-empty: pop from it
    obtain ⟨e, he⟩ : ∃ e, p.log.getLast? = some e := by
      cases hle : p.log.getLast? with
      | none => exact absurd (List.getLast?_eq_none_iff.mp hle) hpe
      | some e => exact ⟨e, rfl⟩
    have hppop : p.popE enc =
        some ⟨p.num, p.remainingSpace + (entryBytes enc e).length,
          p.data.take (p.data.length - (entryBytes enc e).length), p.log.dropLast⟩ := by
      rw [Page.popE, he]
    refine ⟨⟨l.pageSize,
      pagerWrite l.pageSize l.file ⟨p.num, p.remainingSpace + (entryBytes enc e).length,
        p.data.take (p.data.length - (entryBytes enc e).length), p.log.dropLast⟩,
      l.pages.dropLast ++ [⟨p.num, p.remainingSpace + (entryBytes enc e).length,
        p.data.take (p.data.length - (entryBytes enc e).length), p.log.dropLast⟩]⟩, ?_, ?_⟩
    · simp only [Log.popE, hlast, hppop]
    · simp only [logWF, Bool.and_eq_true, List.all_eq_true, Bool.not_eq_true']
      constructor
      · simp
      · intro r hr
        rw [List.dropLast_concat] at hr
        exact hdrop r hr

lemma logWF_pages_ne {α : Type} (l : Log α) (hwf : logWF l = true) : l.pages ≠ [] := by
  simp only [logWF, Bool.and_eq_true, List.all_eq_true, Bool.not_eq_true'] at hwf
  intro hnil
  rw [hnil] at hwf
  simp at hwf

/-- The model of `Log.__getitem__` with an integer index agrees with indexing the
logical entry list. -/
lemma logGetAux_eq {α : Type} (ps : List (Page α)) (i : Nat) :
    logGetAux ps i = (asListP ps)[i]? := by
  induction ps generalizing i with
  | nil => simp [logGetAux, asListP]
  | cons p ps ih =>
    have hflat : asListP (p :: ps) = p.log ++ asListP ps := by simp [asListP]
    rw [logGetAux, hflat]
    split
    · next h =>
      rw [List.getElem?_append_left h, List.getElem?_eq_getElem h]
      simp [List.get_eq_getElem]
    · next h =>
      rw [List.getElem?_append_right (by omega), ih]

lemma logGet_eq {α : Type} (l : Log α) (i : Nat) :
    logGet l i = (asList l)[i]? := logGetAux_eq l.pages i

/-- The model of `clear_upto` pops down to the first `upto` entries. -/
lemma clearUptoAux_spec {α : Type} (enc : α → List Nat) :
    ∀ (fuel : Nat) (l : Log α) (upto : Int), logWF l = true → 0 ≤ upto →
    (logLen l : Int) - upto ≤ fuel →
    ∃ l', clearUptoAux enc fuel l upto = some l' ∧
      asList l' = (asList l).take upto.toNat ∧ logWF l' = true ∧
      l'.pageSize = l.pageSize := by
  intro fuel
  induction fuel with
  | zero =>
    intro l upto hwf h0 hfuel
    have hle : (asList l).length ≤ upto.toNat := by
      rw [← logLen_eq_length]
      omega
    refine ⟨l, ?_, by rw [List.take_of_length_le hle], hwf, rfl⟩
    rw [clearUptoAux]
    have hng : ¬ ((logLen l : Int) > upto) := by omega
    simp [hng]
  | succ fuel ih =>
    intro l upto hwf h0 hfuel
    by_cases hgt : (logLen l : Int) > upto
    · have hlen : 0 < logLen l := by omega
      obtain ⟨l1, hpop, hwf1⟩ := Log.popE_some enc l hwf hlen
      obtain ⟨-, hlist1, hlen1, hps1, -⟩ := Log.popE_char enc l none l1 hpop
      obtain ⟨l', hrec, hlist', hwf', hps'⟩ := ih l1 upto hwf1 h0 (by omega)
      refine ⟨l', ?_, ?_, hwf', by rw [hps', hps1]⟩
      · rw [clearUptoAux, if_pos hgt, hpop]
        exact hrec
      · rw [hlist', hlist1, List.dropLast_eq_take, List.take_take]
        congr 1
        have hlenl : (asList l).length = logLen l := (logLen_eq_length l).symm
        omega
    · have hle : (asList l).length ≤ upto.toNat := by
        rw [← logLen_eq_length]
        omega
      refine ⟨l, ?_, by rw [List.take_of_length_le hle], hwf, rfl⟩
      rw [clearUptoAux, if_neg hgt]

/-- The append loop of `apply_all_entries` succeeds for entries that fit
a page and appends them in order. -/
lemma appendAll_spec {α : Type} (enc : α → List Nat) :
    ∀ (es : List (LogEntry α)) (l : Log α), l.pages ≠ [] →
    (∀ e ∈ es, fitsPage enc l.pageSize e = true) →
    ∃ l', appendAll enc l es = some l' ∧ asList l' = asList l ++ es ∧
      l'.pages ≠ [] ∧ l'.pageSize = l.pageSize := by
  intro es
  induction es with
  | nil =>
    intro l hne _
    exact ⟨l, rfl, by simp, hne, rfl⟩
  | cons e es ih =>
    intro l hne hfit
    obtain ⟨l1, happ, hlist1, hne1, hps1⟩ :=
      Log.appendE_some enc l e hne (hfit e (by simp))
    obtain ⟨l', hrec, hlist', hne', hps'⟩ := ih l1 hne1 (by
      intro e' he'
      rw [hps1]
      exact hfit e' (by simp [he']))
    refine ⟨l', ?_, ?_, hne', by rw [hps', hps1]⟩
    · simp only [appendAll, happ]
      exact hrec
    · rw [hlist', hlist1]
      simp

/-- The model of `apply_all_entries` truncates to `prev_index + 1` entries and then
appends the new entries. -/
lemma applyAllEntries_spec {α : Type} (enc : α → List Nat) (l : Log α) (pi : Int)
    (es : List (LogEntry α)) (hwf : logWF l = true) (hpi : -1 ≤ pi)
    (hfit : ∀ e ∈ es, fitsPage enc l.pageSize e = true) :
    ∃ l', applyAllEntries enc l pi es = some l' ∧
      asList l' = (asList l).take (pi + 1).toNat ++ es := by
  have hne : l.pages ≠ [] := logWF_pages_ne l hwf
  by_cases hgt : (logLen l : Int) > pi + 1
  · obtain ⟨l1, hclear, hlist1, hwf1, hps1⟩ :=
      clearUptoAux_spec enc (logLen l) l (pi + 1) hwf (by omega) (by omega)
    obtain ⟨l', happ, hlist', -, -⟩ := appendAll_spec enc es l1 (logWF_pages_ne l1 hwf1) (by
      intro e' he'
      rw [hps1]
      exact hfit e' he')
    refine ⟨l', ?_, by rw [hlist', hlist1]⟩
    simp only [applyAllEntries, if_pos hgt, clearUpto, hclear, happ]
  · have htake : (asList l).take (pi + 1).toNat = asList l := by
      apply List.take_of_length_le
      rw [← logLen_eq_length]
      omega
    obtain ⟨l', happ, hlist', -, -⟩ := appendAll_spec enc es l hne hfit
    refine ⟨l', ?_, by rw [hlist', htake]⟩
    simp only [applyAllEntries, if_neg hgt, happ]

/-- Master lemma for `append_entries`: it succeeds exactly under the
Raft log-matching condition, in which case the log becomes the old
prefix up to `prev_index` followed by the new entries; on failure the
log is untouched. -/
lemma appendEntries_spec {α : Type} (enc : α → List Nat) (l : Log α) (pi pt : Int)
    (es : List (LogEntry α)) (hwf : logWF l = true) (hpi : -1 ≤ pi)
    (hfit : ∀ e ∈ es, fitsPage enc l.pageSize e = true) :
    ∃ b l', appendEntries enc l pi pt es = some (b, l') ∧
      (b = true ↔ (pi = -1 ∨ (pi < (logLen l : Int) ∧
        ∃ e, (asList l)[pi.toNat]? = some e ∧ (e.term : Int) = pt))) ∧
      (b = true → asList l' = (asList l).take (pi + 1).toNat ++ es) ∧
      (b = false → l' = l) := by
  by_cases hge : pi ≥ (logLen l : Int)
  · refine ⟨false, l, ?_, ?_, by simp, fun _ => rfl⟩
    · rw [appendEntries, if_pos hge]
    · constructor
      · intro h
        exact absurd h (by simp)
      · rintro (h | ⟨hlt, -⟩) <;> omega
  · by_cases hm1 : pi = -1
    · obtain ⟨l', happly, hlist'⟩ := applyAllEntries_spec enc l pi es hwf hpi hfit
      refine ⟨true, l', ?_, by simp [hm1], fun _ => hlist', by simp⟩
      rw [appendEntries, if_neg hge, if_pos hm1, happly]
      rfl
    · have h0 : 0 ≤ pi := by omega
      have hlt : (logLen l : Int) > pi := by omega
      have hidx : pi.toNat < (asList l).length := by
        rw [← logLen_eq_length]
        omega
      obtain ⟨e, hget⟩ : ∃ e, (asList l)[pi.toNat]? = some e :=
        ⟨(asList l)[pi.toNat], List.getElem?_eq_getElem hidx⟩
      have hlogget : logGet l pi.toNat = some e := by rw [logGet_eq, hget]
      by_cases hterm : (e.term : Int) = pt
      · obtain ⟨l', happly, hlist'⟩ := applyAllEntries_spec enc l pi es hwf hpi hfit
        refine ⟨true, l', ?_, ?_, fun _ => hlist', by simp⟩
        · simp only [appendEntries, if_neg hge, if_neg hm1, if_pos h0, if_pos hlt,
            hlogget, if_pos hterm, happly]
          rfl
        · simp only [true_iff]
          exact Or.inr ⟨by omega, e, hget, hterm⟩
      · refine ⟨false, l, ?_, ?_, by simp, fun _ => rfl⟩
        · simp only [appendEntries, if_neg hge, if_neg hm1, if_pos h0, if_pos hlt,
            hlogget, if_neg hterm]
        · simp only [Bool.false_eq_true, false_iff]
          rintro (h | ⟨-, e', hget', hterm'⟩)
          · exact hm1 h
          · rw [hget] at hget'
            cases hget'
            exact hterm hterm'

/-! ### Sorting bridge for `has_consensus` -/

/-- Insertion sort (the model of Python `sorted`) agrees with merge
sort (the spec-side formulation): both are sorted permutations. -/
lemma insertionSort_eq_mergeSort (l : List Int) :
    List.insertionSort (· ≤ ·) l = l.mergeSort (fun a b => decide (a ≤ b)) := by
  refine List.eq_of_perm_of_sorted ?_ (List.sorted_insertionSort _ l) (List.sorted_mergeSort' l)
  exact (List.perm_insertionSort _ l).trans (List.mergeSort_perm l _).symm

/-- The result of `has_consensus` on a non-empty map is exactly the
spec's median test. -/
lemma hasConsensus_eq (mi : List (String × Int)) (i : Int) (hne : mi ≠ []) :
    hasConsensus mi i = some (decide (specMedian mi ≥ i)) := by
  have hsort := insertionSort_eq_mergeSort (mi.map Prod.snd)
  have hmlen : ((mi.map Prod.snd).mergeSort (fun a b => decide (a ≤ b))).length
      = mi.length := by
    rw [← hsort, List.length_insertionSort, List.length_map]
  have hpos : 0 < mi.length := List.length_pos.mpr hne
  have hidx : (mi.length - 1) / 2 <
      ((mi.map Prod.snd).mergeSort (fun a b => decide (a ≤ b))).length := by
    rw [hmlen]
    omega
  simp only [hasConsensus, hsort, hmlen, List.getElem?_eq_getElem hidx, specMedian,
    List.getD_eq_getElem _ _ hidx]

lemma alookup_aset_self {β : Type} (l : List (String × β)) (k : String) (v : β) :
    alookup (aset l k v) k = some v := by
  induction l with
  | nil => simp [aset, alookup]
  | cons p rest ih =>
    obtain ⟨pk, pv⟩ := p
    by_cases h : pk = k
    · simp [aset, h, alookup]
    · simp [aset, h, alookup, ih]

lemma alookup_ne_nil {β : Type} (l : List (String × β)) (k : String) (v : β)
    (h : alookup l k = some v) : l ≠ [] := by
  intro hnil
  rw [hnil] at h
  simp [alookup] at h

lemma logGetI_some {α : Type} (l : Log α) (i : Int) (h0 : 0 ≤ i)
    (hlt : i < (logLen l : Int)) : ∃ e, logGetI l i = some e := by
  rw [logGetI, if_neg (by omega : ¬ i < 0), logGet_eq]
  have hidx : i.toNat < (asList l).length := by
    rw [← logLen_eq_length]
    omega
  exact ⟨_, List.getElem?_eq_getElem hidx⟩

lemma lastTermAt_some {α : Type} (l : Log α) (i : Int) (hm1 : -1 ≤ i)
    (hlt : i < (logLen l : Int)) : ∃ t, lastTermAt l i = some t := by
  by_cases h0 : 0 ≤ i
  · obtain ⟨e, he⟩ := logGetI_some l i h0 hlt
    refine ⟨(e.term : Int), ?_⟩
    rw [lastTermAt, if_pos (by omega : i ≥ 0), he]
    rfl
  · exact ⟨-1, by rw [lastTermAt, if_neg (by omega : ¬ i ≥ 0)]⟩

lemma fromRaftState_some {α σ ρ : Type} (st : NodeState α σ) (sender dst : String)
    (n : Int) (hn : alookup st.nextIndex dst = some n) (h0 : 0 ≤ n)
    (hprev : n - 1 < (logLen st.log : Int)) :
    ∃ msg, fromRaftState (ρ := ρ) st sender dst = some msg := by
  obtain ⟨t, ht⟩ := lastTermAt_some st.log (n - 1) (by omega) hprev
  by_cases hge : (logLen st.log : Int) - 1 ≥ n
  · refine ⟨.appendEntriesRequest sender st.currentTerm (n - 1) t
      ((sliceFrom st.log n.toNat).map (fun e => (e.term, e.item))) st.commitIndex, ?_⟩
    simp only [fromRaftState, hn, ht, if_pos hge, if_neg (by omega : ¬ n < 0)]
  · refine ⟨.appendEntriesRequest sender st.currentTerm (n - 1) t [] st.commitIndex, ?_⟩
    simp only [fromRaftState, hn, ht, if_neg hge]

/-- The apply loop terminates with `last_applied = commit_index` and
touches neither `commit_index` nor the log. -/
lemma applyAnyCommitsAux_spec {α σ ρ : Type} (applySm : σ → α → σ × ρ) :
    ∀ (fuel : Nat) (st : NodeState α σ) (acc : List (Sent α ρ)),
    st.lastApplied ≤ st.commitIndex → -1 ≤ st.lastApplied →
    st.commitIndex < (logLen st.log : Int) →
    (st.commitIndex - st.lastApplied).toNat ≤ fuel →
    ∃ st' out, applyAnyCommitsAux applySm fuel st acc = some (st', out) ∧
      st'.commitIndex = st.commitIndex ∧ st'.lastApplied = st.commitIndex ∧
      st'.log = st.log := by
  intro fuel
  induction fuel with
  | zero =>
    intro st acc hla hlam hci hfuel
    have hng : ¬ (st.commitIndex > st.lastApplied) := by omega
    refine ⟨st, acc, ?_, rfl, by omega, rfl⟩
    rw [applyAnyCommitsAux, if_neg hng]
  | succ fuel ih =>
    intro st acc hla hlam hci hfuel
    by_cases hgt : st.commitIndex > st.lastApplied
    · obtain ⟨e, he⟩ := logGetI_some st.log (st.lastApplied + 1) (by omega) (by omega)
      have step : ∀ (st2 : NodeState α σ) (acc2 : List (Sent α ρ)),
          st2.commitIndex = st.commitIndex → st2.lastApplied = st.lastApplied + 1 →
          st2.log = st.log →
          ∃ st' out, applyAnyCommitsAux applySm fuel st2 acc2 = some (st', out) ∧
            st'.commitIndex = st.commitIndex ∧ st'.lastApplied = st.commitIndex ∧
            st'.log = st.log := by
        intro st2 acc2 h1 h2 h3
        obtain ⟨st', out, hrec, hc, hl, hg⟩ := ih st2 acc2 (by omega) (by omega)
          (by rw [h1, h3]; exact hci) (by omega)
        exact ⟨st', out, hrec, by omega, by omega, by rw [hg, h3]⟩
      simp only [applyAnyCommitsAux, if_pos hgt, he]
      split
      · split
        · exact step _ _ rfl rfl rfl
        · exact step _ _ rfl rfl rfl
      · exact step _ _ rfl rfl rfl
    · refine ⟨st, acc, ?_, rfl, by omega, rfl⟩
      rw [applyAnyCommitsAux, if_neg hgt]

lemma applyAnyCommits_spec {α σ ρ : Type} (applySm : σ → α → σ × ρ)
    (st : NodeState α σ) (hla : st.lastApplied ≤ st.commitIndex)
    (hlam : -1 ≤ st.lastApplied) (hci : st.commitIndex < (logLen st.log : Int)) :
    ∃ st' out, applyAnyCommits (ρ := ρ) applySm st = some (st', out) ∧
      st'.commitIndex = st.commitIndex ∧ st'.lastApplied = st.commitIndex ∧
      st'.log = st.log :=
  applyAnyCommitsAux_spec applySm _ st [] hla hlam hci (le_refl _)

/-- The prelude of the append-entries request handler never touches
`commit_index`, `last_applied` or the log. -/
lemma aeReqPrelude_fields {α σ : Type} (st : NodeState α σ) (req : AppendEntriesReq α) :
    (aeReqPrelude st req).commitIndex = st.commitIndex ∧
    (aeReqPrelude st req).lastApplied = st.lastApplied ∧
    (aeReqPrelude st req).log = st.log := by
  simp only [aeReqPrelude, becomeFollower]
  split <;> split <;> split <;> exact ⟨rfl, rfl, rfl⟩

lemma aeReqFinish_mono {α σ ρ : Type} (applySm : σ → α → σ × ρ)
    (X : NodeState α σ) (res1 : Sent α ρ) (c : Int)
    (h1 : X.lastApplied ≤ X.commitIndex) (h2 : -1 ≤ X.lastApplied)
    (h3 : X.commitIndex < (logLen X.log : Int)) (h4 : c ≤ X.commitIndex) :
    ∃ st' out, aeReqFinish applySm X res1 = some (st', out) ∧
      c ≤ st'.commitIndex ∧ st'.lastApplied ≤ st'.commitIndex := by
  obtain ⟨st4, out4, ha, hc, hl, -⟩ := applyAnyCommits_spec applySm X h1 h2 h3
  refine ⟨st4, res1 :: out4, ?_, by omega, by omega⟩
  rw [aeReqFinish, ha]

lemma aeRespFinish_mono {α σ ρ : Type} (applySm : σ → α → σ × ρ)
    (X : NodeState α σ) (resend : List (Sent α ρ)) (c : Int)
    (h1 : X.lastApplied ≤ X.commitIndex) (h2 : -1 ≤ X.lastApplied)
    (h3 : X.commitIndex < (logLen X.log : Int)) (h4 : c ≤ X.commitIndex) :
    ∃ st' out, aeRespFinish applySm X resend = some (st', out) ∧
      c ≤ st'.commitIndex ∧ st'.lastApplied ≤ st'.commitIndex := by
  obtain ⟨st4, out4, ha, hc, hl, -⟩ := applyAnyCommits_spec applySm X h1 h2 h3
  refine ⟨st4, resend ++ out4, ?_, by omega, by omega⟩
  rw [aeRespFinish, ha]

/-- Commit monotonicity of the append-entries request handler, under
the leader-coverage hypothesis
`commit_index ≤ prev_index + len(entries)`. -/
lemma handleAERequest_commit_mono {α σ ρ : Type} (enc : α → List Nat)
    (applySm : σ → α → σ × ρ) (st : NodeState α σ) (req : AppendEntriesReq α)
    (hla : st.lastApplied ≤ st.commitIndex)
    (hlam : -1 ≤ st.lastApplied)
    (hci : st.commitIndex < (logLen st.log : Int))
    (hwf : logWF st.log = true)
    (hfit : ∀ p ∈ req.entries, fitsPage enc st.log.pageSize (LogEntry.mk p.1 p.2) = true)
    (hprev : -1 ≤ req.prevIndex)
    (hcov : st.commitIndex ≤ req.prevIndex + req.entries.length) :
    ∃ st' out, handleAppendEntriesRequest enc applySm st req = some (st', out) ∧
      st.commitIndex ≤ st'.commitIndex ∧ st'.lastApplied ≤ st'.commitIndex := by
  obtain ⟨hc1, hl1, hg1⟩ := aeReqPrelude_fields st req
  by_cases hterm : req.term < (aeReqPrelude st req).currentTerm
  · refine ⟨aeReqPrelude st req,
      [(req.sender, .appendEntriesResponse (aeReqPrelude st req).nodeId
        (aeReqPrelude st req).currentTerm false
        ((logLen (aeReqPrelude st req).log : Int) - 1))], ?_, by omega, by omega⟩
    simp only [handleAppendEntriesRequest, if_pos hterm]
  · have hfit2 : ∀ e ∈ req.entries.map (fun p => LogEntry.mk p.1 p.2),
        fitsPage enc (aeReqPrelude st req).log.pageSize e = true := by
      intro e he
      rw [hg1]
      obtain ⟨p, hp, rfl⟩ := List.mem_map.mp he
      exact hfit p hp
    obtain ⟨b, l', happ, hiff, htrue, hfalse⟩ :=
      appendEntries_spec enc (aeReqPrelude st req).log req.prevIndex req.prevTerm
        (req.entries.map (fun p => LogEntry.mk p.1 p.2))
        (by rw [hg1]; exact hwf) hprev hfit2
    simp only [handleAppendEntriesRequest, if_neg hterm, happ]
    cases b with
    | false =>
      have hleq : l' = (aeReqPrelude st req).log := hfalse rfl
      simp only [Bool.false_eq_true, if_false, false_and]
      apply aeReqFinish_mono applySm _ _ st.commitIndex
      · show (aeReqPrelude st req).lastApplied ≤ (aeReqPrelude st req).commitIndex
        omega
      · show -1 ≤ (aeReqPrelude st req).lastApplied
        omega
      · show (aeReqPrelude st req).commitIndex < (logLen l' : Int)
        rw [hleq, hg1, hc1]
        exact hci
      · show st.commitIndex ≤ (aeReqPrelude st req).commitIndex
        omega
    | true =>
      have hlist := htrue rfl
      have hlenNat : logLen l' =
          min (req.prevIndex + 1).toNat (logLen (aeReqPrelude st req).log) +
            req.entries.length := by
        rw [logLen_eq_length, hlist, List.length_append, List.length_take,
          List.length_map, ← logLen_eq_length]
      have hlen' : (logLen l' : Int) = req.prevIndex + 1 + req.entries.length := by
        have hp1 : ((req.prevIndex + 1).toNat : Int) = req.prevIndex + 1 :=
          Int.toNat_of_nonneg (by omega)
        rcases hiff.mp rfl with hpm1 | ⟨hplt, -⟩
        · rw [hpm1] at hp1 ⊢
          omega
        · omega
      have hcovI : st.commitIndex < (logLen l' : Int) := by
        rw [hlen']
        omega
      simp only [if_true, true_and]
      split
      · apply aeReqFinish_mono applySm _ _ st.commitIndex
        · show (aeReqPrelude st req).lastApplied ≤
            min req.commitIndex ((logLen l' : Int) - 1)
          next hcond =>
          omega
        · show -1 ≤ (aeReqPrelude st req).lastApplied
          omega
        · show min req.commitIndex ((logLen l' : Int) - 1) < (logLen l' : Int)
          omega
        · show st.commitIndex ≤ min req.commitIndex ((logLen l' : Int) - 1)
          next hcond =>
          omega
      · apply aeReqFinish_mono applySm _ _ st.commitIndex
        · show (aeReqPrelude st req).lastApplied ≤ (aeReqPrelude st req).commitIndex
          omega
        · show -1 ≤ (aeReqPrelude st req).lastApplied
          omega
        · show (aeReqPrelude st req).commitIndex < (logLen l' : Int)
          omega
        · show st.commitIndex ≤ (aeReqPrelude st req).commitIndex
          omega

/-- The tail of the response handler after the bookkeeping: it
succeeds, never lowers `commit_index`, and re-establishes
`last_applied ≤ commit_index`. -/
lemma aeRespCore_mono {α σ ρ : Type} (applySm : σ → α → σ × ρ)
    (st : NodeState α σ) (sender : String) (m : Int)
    (hm : alookup st.matchIndex sender = some m)
    (hm2 : m < (logLen st.log : Int))
    (hnext : ∃ n, alookup st.nextIndex sender = some n ∧ 0 ≤ n ∧
      n - 1 < (logLen st.log : Int))
    (hla : st.lastApplied ≤ st.commitIndex)
    (hlam : -1 ≤ st.lastApplied)
    (hci : st.commitIndex < (logLen st.log : Int)) :
    ∃ st' out, aeRespCore applySm st sender = some (st', out) ∧
      st.commitIndex ≤ st'.commitIndex ∧ st'.lastApplied ≤ st'.commitIndex := by
  obtain ⟨n, hn, hn0, hnp⟩ := hnext
  obtain ⟨resend, hresend⟩ : ∃ resend,
      (if m ≠ (logLen st.log : Int) - 1 then
        (fromRaftState (ρ := ρ) st st.nodeId sender).map (fun msg => [(sender, msg)])
      else some []) = some resend := by
    by_cases hme : m ≠ (logLen st.log : Int) - 1
    · obtain ⟨msg, hmsg⟩ := fromRaftState_some st st.nodeId sender n hn hn0 hnp
      refine ⟨[(sender, msg)], ?_⟩
      rw [if_pos hme, hmsg]
      rfl
    · exact ⟨[], by rw [if_neg hme]⟩
  have hne : st.matchIndex ≠ [] := alookup_ne_nil _ _ _ hm
  have hcons := hasConsensus_eq st.matchIndex m hne
  cases hckv : decide (specMedian st.matchIndex ≥ m) with
  | false =>
    rw [hckv] at hcons
    simp only [aeRespCore, hm, hresend, hcons, Bool.false_eq_true, false_and, if_false]
    exact aeRespFinish_mono applySm st resend st.commitIndex hla hlam hci (le_refl _)
  | true =>
    rw [hckv] at hcons
    by_cases hcm : m > -1
    · obtain ⟨e, he⟩ := logGetI_some st.log m (by omega) hm2
      by_cases hset : e.term = st.currentTerm ∧ st.commitIndex < m
      · simp only [aeRespCore, hm, hresend, hcons, eq_self_iff_true, true_and,
          if_pos hcm, he, Option.map_some', if_pos hset]
        apply aeRespFinish_mono applySm _ resend st.commitIndex
        · show st.lastApplied ≤ m
          omega
        · exact hlam
        · show m < (logLen st.log : Int)
          exact hm2
        · show st.commitIndex ≤ m
          omega
      · simp only [aeRespCore, hm, hresend, hcons, eq_self_iff_true, true_and,
          if_pos hcm, he, Option.map_some', if_neg hset]
        exact aeRespFinish_mono applySm st resend st.commitIndex hla hlam hci (le_refl _)
    · simp only [aeRespCore, hm, hresend, hcons, eq_self_iff_true, true_and,
        if_neg hcm]
      exact aeRespFinish_mono applySm st resend st.commitIndex hla hlam hci (le_refl _)

/-- The match/next-index bookkeeping succeeds and leaves the fields the
commit invariant tracks in place, with the updated map entries in
range. -/
lemma aeRespUpdate_spec {α σ : Type} (st : NodeState α σ) (res : AppendEntriesRes)
    (m0 : Int) (hm0 : alookup st.matchIndex res.sender = some m0)
    (hm0b : -1 ≤ m0 ∧ m0 < (logLen st.log : Int))
    (n0 : Int) (hn0 : alookup st.nextIndex res.sender = some n0)
    (hn0b : 0 ≤ n0 ∧ n0 ≤ (logLen st.log : Int))
    (hres : -1 ≤ res.matchIndex ∧ res.matchIndex < (logLen st.log : Int)) :
    ∃ st2, aeRespUpdate st res = some st2 ∧
      st2.commitIndex = st.commitIndex ∧ st2.lastApplied = st.lastApplied ∧
      st2.log = st.log ∧
      (∃ m, alookup st2.matchIndex res.sender = some m ∧ -1 ≤ m ∧
        m < (logLen st.log : Int)) ∧
      (∃ n, alookup st2.nextIndex res.sender = some n ∧ 0 ≤ n ∧
        n - 1 < (logLen st.log : Int)) := by
  cases hsucc : res.success with
  | true =>
    refine ⟨{ st with
        matchIndex := aset st.matchIndex res.sender (max res.matchIndex m0)
        nextIndex := aset st.nextIndex res.sender (max res.matchIndex m0 + 1) },
      ?_, rfl, rfl, rfl, ?_, ?_⟩
    · simp only [aeRespUpdate, hsucc, eq_self_iff_true, if_true, hm0, Option.map_some']
    · exact ⟨max res.matchIndex m0, alookup_aset_self _ _ _, by omega, by omega⟩
    · exact ⟨max res.matchIndex m0 + 1, alookup_aset_self _ _ _, by omega, by omega⟩
  | false =>
    refine ⟨{ st with
        nextIndex := aset st.nextIndex res.sender (max 0 (n0 - 1)) },
      ?_, rfl, rfl, rfl, ?_, ?_⟩
    · simp only [aeRespUpdate, hsucc, Bool.false_eq_true, if_false, hn0, Option.map_some']
    · exact ⟨m0, hm0, hm0b.1, hm0b.2⟩
    · exact ⟨max 0 (n0 - 1), alookup_aset_self _ _ _, by omega, by omega⟩

/-- Commit monotonicity of the append-entries response handler. -/
lemma handleAEResponse_commit_mono {α σ ρ : Type} (applySm : σ → α → σ × ρ)
    (st : NodeState α σ) (res : AppendEntriesRes)
    (hla : st.lastApplied ≤ st.commitIndex)
    (hlam : -1 ≤ st.lastApplied)
    (hci : st.commitIndex < (logLen st.log : Int))
    (hm : ∃ m, alookup st.matchIndex res.sender = some m ∧ -1 ≤ m ∧
      m < (logLen st.log : Int))
    (hn : ∃ n, alookup st.nextIndex res.sender = some n ∧ 0 ≤ n ∧
      n ≤ (logLen st.log : Int))
    (hres : -1 ≤ res.matchIndex ∧ res.matchIndex < (logLen st.log : Int)) :
    ∃ st' out, handleAppendEntriesResponse applySm st res = some (st', out) ∧
      st.commitIndex ≤ st'.commitIndex ∧ st'.lastApplied ≤ st'.commitIndex := by
  obtain ⟨m0, hm0, hm0a, hm0b⟩ := hm
  obtain ⟨n0, hn0, hn0a, hn0b⟩ := hn
  simp only [handleAppendEntriesResponse]
  have hfields : ∀ st1 : NodeState α σ,
      st1 = (if st.currentTerm < res.term then becomeFollower st else st) →
      st1.commitIndex = st.commitIndex ∧ st1.lastApplied = st.lastApplied ∧
      st1.log = st.log ∧ st1.matchIndex = st.matchIndex ∧
      st1.nextIndex = st.nextIndex := by
    intro st1 h
    rw [h]
    split <;> exact ⟨rfl, rfl, rfl, rfl, rfl⟩
  obtain ⟨hf1, hf2, hf3, hf4, hf5⟩ := hfields _ rfl
  set st1 := if st.currentTerm < res.term then becomeFollower st else st with hst1
  by_cases hstat : st1.status ≠ Status.leader
  · refine ⟨st1, [], ?_, by omega, by omega⟩
    rw [if_pos hstat]
  · rw [if_neg hstat]
    obtain ⟨st2, hupd, h2c, h2l, h2g, ⟨M, hM, hMa, hMb⟩, ⟨N, hN, hNa, hNb⟩⟩ :=
      aeRespUpdate_spec st1 res m0 (by rw [hf4]; exact hm0)
        (by rw [hf3]; exact ⟨hm0a, hm0b⟩) n0 (by rw [hf5]; exact hn0)
        (by rw [hf3]; exact ⟨hn0a, hn0b⟩) (by rw [hf3]; exact hres)
    simp only [hupd]
    obtain ⟨st', out, hcore, hcc, hcl⟩ :=
      aeRespCore_mono applySm st2 res.sender M hM (by rw [h2g]; exact hMb)
        ⟨N, hN, hNa, by rw [h2g]; exact hNb⟩
        (by omega) (by omega) (by rw [h2g, hf3]; omega)
    exact ⟨st', out, hcore, by omega, hcl⟩

/-- C1: for every well-formed log `l`, `prev_index ≥ -1`, any
`prev_term`, and entries that fit a page (oversized entries are a fatal
configuration error per the spec's failure semantics),
`append_entries(l, prev_index, prev_term, es)` returns `true` iff
`prev_index = -1` or `prev_index < len(l)` and
`l[prev_index].term = prev_term`; on `true` the log becomes the first
`prev_index + 1` entries of the original log followed by `es` in order,
and on `false` the log is left unchanged. -/
theorem C1_append_entries {α : Type} (enc : α → List Nat) (l : Log α)
    (pi pt : Int) (es : List (LogEntry α)) (hwf : logWF l = true)
    (hpi : -1 ≤ pi) (hfit : ∀ e ∈ es, fitsPage enc l.pageSize e = true) :
    ∃ b l', appendEntries enc l pi pt es = some (b, l') ∧
      (b = true ↔ (pi = -1 ∨ (pi < (logLen l : Int) ∧
        ∃ e, (asList l)[pi.toNat]? = some e ∧ (e.term : Int) = pt))) ∧
      (b = true → asList l' = (asList l).take (pi + 1).toNat ++ es) ∧
      (b = false → l' = l) :=
  appendEntries_spec enc l pi pt es hwf hpi hfit

theorem C1_append_entries_witness :
    ∃ b l', appendEntries jsonNatEnc w1Log 0 1 [⟨2, 9⟩] = some (b, l') ∧
      (b = true ↔ ((0 : Int) = -1 ∨ ((0 : Int) < (logLen w1Log : Int) ∧
        ∃ e, (asList w1Log)[(0 : Int).toNat]? = some e ∧ (e.term : Int) = 1))) ∧
      (b = true → asList l' = (asList w1Log).take ((0 : Int) + 1).toNat ++ [⟨2, 9⟩]) ∧
      (b = false → l' = w1Log) :=
  C1_append_entries jsonNatEnc w1Log 0 1 [⟨2, 9⟩] (by decide) (by decide) (by decide)

/-- C2: the code's grant condition in `handle_vote_request` is
`voted_for is None or (voted_for == candidate and up_to_date)` by
Python precedence, so a node that has not voted grants even to a
candidate whose log is strictly less up-to-date.  At `c2State` (term 5,
one term-5 entry, `voted_for = None`) a request from a candidate with
an empty log is granted, while the spec-mandated bracketed condition
(`specVoteGrant`, §4.F) denies it. -/
theorem C2_vote_grant_code_bug :
    (handleVoteRequest (ρ := String) c2State c2Req).map
        (fun r => (r.2, r.1.votedFor)) =
      some ([("n1", .voteResponse "n0" 5 true)], some "n1") ∧
    specVoteGrant c2State.votedFor c2Req.candidate c2Req.lastLogTerm
      c2Req.lastLogIndex 5 0 = false := by
  decide

/-- C3: appending `LogEntry(1, 5)` to a fresh log writes a well-formed
page file, but re-opening the same file parses no entries at all:
`Page.load` computes `end = len(data) - remaining_space`, which is
negative for any page read back by `Pager.read`/`__iter__` (the data
already has its padding stripped).  The repository's own
`test_log.py::PageTestCases::test_load` fails against this code. -/
theorem C3_paged_roundtrip_code_bug :
    c3Log.map asList = some [⟨1, 5⟩] ∧
    c3Log.map (fun l => l.file.length) = some 64 ∧
    c3Reloaded = some [] ∧
    c3Reloaded ≠ c3Log.map asList := by
  decide

/-- C4: a three-message run in which the node grants its vote twice in
the same term (0) to two different candidates: `become_follower`
(called from `demote` on an `AppendEntriesResponse` with a higher term,
which does not raise `current_term`) resets `voted_for` to `None`. -/
theorem C4_single_vote_code_bug :
    c4Step1.map (fun r => (r.2, r.1.currentTerm)) =
      some ([("n1", OutMsg.voteResponse "n0" 0 true)], 0) ∧
    c4Step2.map (fun r => (r.1.votedFor, r.1.currentTerm)) = some (none, 0) ∧
    c4Step3.map (fun r => (r.2, r.1.currentTerm)) =
      some ([("n2", OutMsg.voteResponse "n0" 0 true)], 0) := by
  decide

/-- C5 counterexample: at a follower with six term-1 entries,
`commit_index = last_applied = 5`, a same-term request with matching
`prev_index = 2`, no entries and `leader_commit = 6` truncates the log
to three entries and sets
`commit_index = min(leader_commit, len - 1) = 2 < 5`, also breaking
`last_applied ≤ commit_index`. -/
theorem C5_commit_monotone_counterexample :
    c5State.commitIndex = 5 ∧ c5State.lastApplied = 5 ∧
    (handleAppendEntriesRequest jsonNatEnc unitSm c5State c5Req).map
      (fun r => (r.1.commitIndex, r.1.lastApplied)) = some (2, 5) ∧
    ¬ ((5 : Int) ≤ 2) := by
  decide

/-- C5 (amended): `last_applied ≤ commit_index` is preserved and
`commit_index` never decreases across `handle_append_entries_request`
(given the leader-coverage proviso
`prev_index + len(entries) ≥ commit_index`),
`handle_append_entries_response` (given in-range leader bookkeeping)
and the apply loop. -/
theorem C5_commit_monotone_amended :
    (∀ (α σ ρ : Type) (enc : α → List Nat) (applySm : σ → α → σ × ρ)
      (st : NodeState α σ) (req : AppendEntriesReq α),
      st.lastApplied ≤ st.commitIndex → -1 ≤ st.lastApplied →
      st.commitIndex < (logLen st.log : Int) → logWF st.log = true →
      (∀ p ∈ req.entries, fitsPage enc st.log.pageSize (LogEntry.mk p.1 p.2) = true) →
      -1 ≤ req.prevIndex →
      st.commitIndex ≤ req.prevIndex + req.entries.length →
      ∃ st' out, handleAppendEntriesRequest enc applySm st req = some (st', out) ∧
        st.commitIndex ≤ st'.commitIndex ∧ st'.lastApplied ≤ st'.commitIndex) ∧
    (∀ (α σ ρ : Type) (applySm : σ → α → σ × ρ) (st : NodeState α σ)
      (res : AppendEntriesRes),
      st.lastApplied ≤ st.commitIndex → -1 ≤ st.lastApplied →
      st.commitIndex < (logLen st.log : Int) →
      (∃ m, alookup st.matchIndex res.sender = some m ∧ -1 ≤ m ∧
        m < (logLen st.log : Int)) →
      (∃ n, alookup st.nextIndex res.sender = some n ∧ 0 ≤ n ∧
        n ≤ (logLen st.log : Int)) →
      (-1 ≤ res.matchIndex ∧ res.matchIndex < (logLen st.log : Int)) →
      ∃ st' out, handleAppendEntriesResponse applySm st res = some (st', out) ∧
        st.commitIndex ≤ st'.commitIndex ∧ st'.lastApplied ≤ st'.commitIndex) ∧
    (∀ (α σ ρ : Type) (applySm : σ → α → σ × ρ) (st : NodeState α σ),
      st.lastApplied ≤ st.commitIndex → -1 ≤ st.lastApplied →
      st.commitIndex < (logLen st.log : Int) →
      ∃ st' out, applyAnyCommits (ρ := ρ) applySm st = some (st', out) ∧
        st'.commitIndex = st.commitIndex ∧ st'.lastApplied ≤ st'.commitIndex) := by
  refine ⟨?_, ?_, ?_⟩
  · intro α σ ρ enc applySm st req h1 h2 h3 h4 h5 h6 h7
    exact handleAERequest_commit_mono enc applySm st req h1 h2 h3 h4 h5 h6 h7
  · intro α σ ρ applySm st res h1 h2 h3 h4 h5 h6
    exact handleAEResponse_commit_mono applySm st res h1 h2 h3 h4 h5 h6
  · intro α σ ρ applySm st h1 h2 h3
    obtain ⟨st', out, ha, hc, hl, -⟩ := applyAnyCommits_spec applySm st h1 h2 h3
    exact ⟨st', out, ha, hc, by omega⟩

theorem C5_commit_monotone_amended_witness :
    ∃ st' out, handleAppendEntriesRequest jsonNatEnc unitSm c5State c5ReqOk =
      some (st', out) ∧
      c5State.commitIndex ≤ st'.commitIndex ∧ st'.lastApplied ≤ st'.commitIndex :=
  C5_commit_monotone_amended.1 Nat Unit String jsonNatEnc unitSm c5State c5ReqOk
    (by decide) (by decide) (by decide) (by decide) (by decide) (by decide) (by decide)

/-- C6: slicing `log[0:]` on a log whose single page holds two entries
returns only the first entry: the slice path of `Log.__getitem__`
appends a single `page.log[start]` element per page instead of the page
suffix.  The logical suffix (`drop`) disagrees. -/
theorem C6_slice_code_bug :
    asList c6Log = [⟨1, 7⟩, ⟨1, 8⟩] ∧
    (asList c6Log).drop 0 = [⟨1, 7⟩, ⟨1, 8⟩] ∧
    sliceFrom c6Log 0 = [⟨1, 7⟩] ∧
    sliceFrom c6Log 0 ≠ (asList c6Log).drop 0 := by
  decide

/-- C7: re-opening a `RaftState` whose `.term` file exists but is empty
(exactly what a first run that never set the term leaves behind) makes
`struct.unpack(">L", f.read(4))` raise instead of reading term 0; the
write-then-reopen round-trips for the term (once 4 bytes exist) and for
the vote do hold. -/
theorem C7_state_persistence_code_bug :
    readTermFile [] = none ∧
    (∀ (f : List Nat) (t : Nat), t < 2 ^ 32 →
      ∃ f', writeTermFile f t = some f' ∧ readTermFile f' = some t) ∧
    (∀ v : Option (List Nat), v ≠ some [] →
      readVoteFile (writeVoteFile v) = v) := by
  refine ⟨rfl, ?_, ?_⟩
  · intro f t ht
    refine ⟨packU32 t ++ f.drop 4, by rw [writeTermFile, if_pos ht], ?_⟩
    have hlen : 4 ≤ (packU32 t ++ f.drop 4).length := by
      simp [packU32]
    rw [readTermFile, if_pos hlen]
    have htake : (packU32 t ++ f.drop 4).take 4 = packU32 t := by
      have h4 : (packU32 t).length = 4 := by simp [packU32]
      rw [← h4, List.take_left]
    rw [htake]
    simp only [packU32, unpackU32, Option.some.injEq]
    omega
  · intro v hv
    match v with
    | none => rfl
    | some bs =>
      have hbs : bs ≠ [] := by
        intro hnil
        exact hv (by rw [hnil])
      rw [writeVoteFile, readVoteFile, if_neg (by simpa using hbs)]

theorem C7_state_persistence_witness :
    readTermFile [] = none ∧
    (∃ f', writeTermFile [] 7 = some f' ∧ readTermFile f' = some 7) ∧
    readVoteFile (writeVoteFile (some [110, 49])) = some [110, 49] :=
  ⟨C7_state_persistence_code_bug.1,
    C7_state_persistence_code_bug.2.1 [] 7 (by decide),
    C7_state_persistence_code_bug.2.2 (some [110, 49]) (by decide)⟩

/-- C8: `Log.pop` on a one-entry log does remove the last entry
(`len` drops from 1 to 0 and iteration yields the empty prefix), but
the Python method body has no `return` statement, so its value is
`None` rather than the removed entry (the repository's own
`test_log.py::PageTestCases::test_pop` asserts `page.pop() == entry`
and fails against this code). -/
theorem C8_pop_code_bug :
    asList c8Log = [⟨1, 7⟩] ∧
    (c8Log.popE jsonNatEnc).map (fun r => (r.1, asList r.2, logLen r.2)) =
      some (none, [], 0) ∧
    (c8Log.popE jsonNatEnc).map Prod.fst ≠ some (some ⟨1, 7⟩) := by
  decide

/-- C9: `has_consensus(i)` returns exactly
`sorted(match_index.values())[(n-1)/2] ≥ i` for every non-empty
`match_index` (the spec-side median written with merge sort), and on
the spec's five-node example `[1, 3, 2, 3, 3]` it is true iff
`i ≤ 3`. -/
theorem C9_has_consensus :
    (∀ (mi : List (String × Int)) (i : Int), mi ≠ [] →
      hasConsensus mi i = some (decide (specMedian mi ≥ i))) ∧
    (∀ i : Int, hasConsensus fiveNodeMatchIndex i = some (decide (i ≤ 3))) := by
  constructor
  · exact fun mi i hne => hasConsensus_eq mi i hne
  · intro i
    have hs : List.insertionSort (· ≤ ·) (fiveNodeMatchIndex.map Prod.snd)
        = [1, 2, 3, 3, 3] := by decide
    unfold hasConsensus
    rw [hs]
    rfl

theorem C9_has_consensus_witness :
    hasConsensus fiveNodeMatchIndex 2 = some (decide (specMedian fiveNodeMatchIndex ≥ 2)) :=
  C9_has_consensus.1 fiveNodeMatchIndex 2 (by decide)

/-- C10: a well-formed `["GET", bucket, key]` command on a store where
the bucket is absent or the key is unset returns `None` (`KVResult.null`,
serialized as JSON `null` in the client response), not an error string. -/
theorem C10_get_missing_returns_null (store : KVStore) (b k : String)
    (h : alookup store.buckets b = none ∨
      ∃ d, alookup store.buckets b = some d ∧ alookup d k = none) :
    (store.apply ["GET", b, k]).1 = KVResult.null := by
  have hup : strUpper "GET" = "GET" := rfl
  rcases h with hnone | ⟨d, hd, hk⟩
  · simp [KVStore.apply, hup, KVStore.get, kvBucket, hnone, alookup]
  · simp [KVStore.apply, hup, KVStore.get, kvBucket, hd, hk]

theorem C10_get_missing_returns_null_witness :
    (KVStore.apply ⟨[("b", [("x", "1")])]⟩ ["GET", "b", "k"]).1 = KVResult.null :=
  C10_get_missing_returns_null ⟨[("b", [("x", "1")])]⟩ "b" "k"
    (Or.inr ⟨[("x", "1")], by decide, by decide⟩)

end Nidus
